import Mathlib

/-!
# Headcount capacity model — verification of `src/app.py`

This file embeds the simulation engine of the Streamlit headcount model
(`src/app.py`) in Lean 4 and proves properties of it.

The engine state is a map from band identity to a real-valued headcount,
modelled here as a function `β → ℚ` for a band type `β` with decidable
equality.  Python float arithmetic is modelled by exact rational
arithmetic; `round(x, 1)` is modelled by `roundTo1` (see its docstring).
The monthly loop of `simulate()` (lines 135–186) becomes the recursion
`hcAfter`, the recorded rows become `snapshotVal` / `snapshotTotal`, and
the `promo_rows` list becomes `runEvents`.
-/

namespace HCModel

/-- Per-band inputs as assembled by the `inputs` dictionary in
`src/app.py` (lines 121–128): starting headcount, monthly hires, monthly
attrition rate (as a fraction, already divided by 100), quarterly
promotion rate (as a fraction), and the optional successor band
(`promo_to`). -/
structure Inputs (β : Type) where
  starting : β → ℚ
  hires : β → ℚ
  attr : β → ℚ
  promo : β → ℚ
  promo_to : β → Option β

/-- `is_quarter_end(dt)` (lines 28–29): the month's calendar number is one
of 3, 6, 9, 12. -/
def is_quarter_end (m : ℕ) : Bool :=
  m = 3 || m = 6 || m = 9 || m = 12

/-- Calendar month number of the `k`-th simulated month, `k = 0` being
January 2025 (`months_index()`, lines 24–26, is a monthly range). -/
def monthNumber (k : ℕ) : ℕ := k % 12 + 1

/-- `months_index()` spans Jan 2025 .. Dec 2026 inclusive: 24 months. -/
def numMonths : ℕ := 24

/-- Zero-padded two-digit rendering of a month number. -/
def pad2 (n : ℕ) : String := if n < 10 then "0" ++ toString n else toString n

/-- `dt.strftime("%Y-%m")` (line 171) for the `k`-th simulated month. -/
def monthLabel (k : ℕ) : String :=
  toString (2025 + k / 12) ++ "-" ++ pad2 (monthNumber k)

variable {β : Type}

/-- Step 1, Attrition (lines 144–146): for every band independently,
`hc[t] = hc[t] * (1.0 - inputs[t]["attr"])`. -/
def attritionStep (cfg : Inputs β) (hc : β → ℚ) : β → ℚ :=
  fun t => hc t * (1 - cfg.attr t)

/-- Step 2, Hires (lines 148–150): for every band independently,
`hc[t] = hc[t] + inputs[t]["hires"]`. -/
def hiresStep (cfg : Inputs β) (hc : β → ℚ) : β → ℚ :=
  fun t => hc t + cfg.hires t

/-- First promotion pass (lines 154–159): the moves dictionary, computed
for every band against the single pre-promotion snapshot `hc`.  A band
with no successor keeps the initialised value `0.0`; a band with a
successor gets `hc[t] * inputs[t]["promo"]`. -/
def movesOf (cfg : Inputs β) (hc : β → ℚ) : β → ℚ := fun t =>
  match cfg.promo_to t with
  | none => 0
  | some _ => hc t * cfg.promo t

/-- One iteration of the apply loop (lines 162–168): if band `t` has no
successor it is skipped (`continue`); otherwise `amt = moves[t]` is
subtracted from `hc[t]` and added to `hc[to_team]`. -/
def applyOne [DecidableEq β] (cfg : Inputs β) (moves : β → ℚ)
    (hc : β → ℚ) (t : β) : β → ℚ :=
  match cfg.promo_to t with
  | none => hc
  | some to_team =>
      let amt := moves t
      let hc1 := Function.update hc t (hc t - amt)
      Function.update hc1 to_team (hc1 to_team + amt)

/-- The whole apply loop of step 3, folding `applyOne` over the band
iteration order (`TEAM_ORDER` in the source). -/
def applyMoves [DecidableEq β] (cfg : Inputs β) (moves : β → ℚ)
    (order : List β) (hc : β → ℚ) : β → ℚ :=
  order.foldl (applyOne cfg moves) hc

/-- The monthly update of `simulate()` (lines 143–168): attrition, then
hires, then — only when `qe` is true — the two-pass promotion step, whose
amounts are computed by `movesOf` against the post-hires state. -/
def monthStep [DecidableEq β] (cfg : Inputs β) (order : List β)
    (qe : Bool) (hc : β → ℚ) : β → ℚ :=
  let hc1 := attritionStep cfg hc
  let hc2 := hiresStep cfg hc1
  if qe then applyMoves cfg (movesOf cfg hc2) order hc2 else hc2

/-- Internal engine state after `k` months: `hcAfter cfg order 0` is the
starting headcount (line 138), and each further month applies
`monthStep` with the quarter-end test of that month. -/
def hcAfter [DecidableEq β] (cfg : Inputs β) (order : List β) : ℕ → β → ℚ
  | 0 => cfg.starting
  | k + 1 => monthStep cfg order (is_quarter_end (monthNumber k))
      (hcAfter cfg order k)

/-- What the recorded row holds for band `t` in month `k` (line 180):
`max(0.0, hc[t])`, the clamp applied at snapshot time only. -/
def snapshotVal [DecidableEq β] (cfg : Inputs β) (order : List β)
    (k : ℕ) (t : β) : ℚ :=
  max 0 (hcAfter cfg order (k + 1) t)

/-- The `Total` column of the recorded row (line 181): sum of the clamped
per-band values over the band order. -/
def snapshotTotal [DecidableEq β] (cfg : Inputs β) (order : List β)
    (k : ℕ) : ℚ :=
  (order.map (snapshotVal cfg order k)).sum

/-- One `promo_rows` record (lines 170–175). -/
structure PromotionEvent (β : Type) where
  quarterEnd : String
  fromBand : β
  toBand : β
  promotedHC : ℚ
deriving DecidableEq, Repr

/-- Model of Python `round(x, 1)` (line 174) over exact rationals:
multiply by 10, round to the nearest integer, divide by 10.  Python's
`round` is round-half-to-even on the binary double; a decimal tie such as
`36.45` is never an exact double, so on the values arising in this model
the double sits strictly off the tie and Python rounds toward it — e.g.
the concrete amount `100·0.9³·0.5` is the double just above `36.45` and
`round` yields `36.5`, which `roundTo1` reproduces (Mathlib's `round`
rounds half away from zero upward: `round (729/2 : ℚ) = 365`). -/
def roundTo1 (x : ℚ) : ℚ := (round (x * 10) : ℤ) / 10

/-- The `promo_rows.append` calls made while applying moves in one
quarter-end month (lines 170–175): one event per band with a successor,
in iteration order, regardless of the amount's value, with the amount
rounded to one decimal. -/
def promoEvents [DecidableEq β] (cfg : Inputs β) (moves : β → ℚ)
    (order : List β) (label : String) : List (PromotionEvent β) :=
  order.filterMap fun t =>
    (cfg.promo_to t).map fun to_team =>
      ⟨label, t, to_team, roundTo1 (moves t)⟩

/-- The promotion events recorded during month `k`: empty unless `k` is a
quarter-end month, in which case the moves are computed against the
post-attrition post-hires state of that month. -/
def monthEvents [DecidableEq β] (cfg : Inputs β) (order : List β)
    (k : ℕ) : List (PromotionEvent β) :=
  if is_quarter_end (monthNumber k) then
    promoEvents cfg
      (movesOf cfg (hiresStep cfg (attritionStep cfg (hcAfter cfg order k))))
      order (monthLabel k)
  else []

/-- All promotion events recorded by a run over the first `n` months
(`promo_rows` at the end of `simulate()`). -/
def runEvents [DecidableEq β] (cfg : Inputs β) (order : List β)
    (n : ℕ) : List (PromotionEvent β) :=
  (List.range n).flatMap (monthEvents cfg order)

/-- The net effect on band `x` of applying band `s`'s move: `applyOne`
adds `moves s` at the destination and subtracts `moves s` at the source
(and does nothing when `s` has no successor).  This is the closed form of
one iteration of the apply loop, used to reason about the fold. -/
def deltaOf [DecidableEq β] (cfg : Inputs β) (moves : β → ℚ) (s x : β) : ℚ :=
  match cfg.promo_to s with
  | none => 0
  | some to_team =>
      (if x = to_team then moves s else 0) - (if x = s then moves s else 0)

/-- The raw widget values read per band (lines 69–119): starting
headcount, monthly hires, attrition in percent, promotion in percent,
and the band's `promo_to` from the `TEAMS` table. -/
structure RawInputs (β : Type) where
  start : β → ℚ
  hires : β → ℚ
  attrPct : β → ℚ
  promoPct : β → ℚ
  promo_to : β → Option β

/-- The `inputs` dictionary construction (lines 98–128): rates are
divided by 100, and a band whose `promo_to` is `None` gets promotion
rate `0.0` regardless of any widget value (lines 98–99 set `promo = 0.0`
without consulting a widget). -/
def mkInputs (r : RawInputs β) : Inputs β where
  starting := r.start
  hires := r.hires
  attr := fun t => r.attrPct t / 100
  promo := fun t =>
    (match r.promo_to t with
      | none => 0
      | some _ => r.promoPct t) / 100
  promo_to := r.promo_to

/-- The two bands of the spec's example scenario. -/
inductive Band2 where
  | A
  | B
deriving DecidableEq, Repr

/-- Raw inputs of the example scenario: band A starts at 100 with no
hires, 10% monthly attrition and 50% quarterly promotion into B; band B
starts at 0 with no hires and no attrition and no successor.  B's raw
promotion percentage is deliberately nonzero here to exercise the
terminal-band override of lines 98–99. -/
def raw8 : RawInputs Band2 where
  start := fun t => match t with | .A => 100 | .B => 0
  hires := fun _ => 0
  attrPct := fun t => match t with | .A => 10 | .B => 0
  promoPct := fun t => match t with | .A => 50 | .B => 40
  promo_to := fun t => match t with | .A => some .B | .B => none

/-- The example-scenario configuration, as the `inputs` construction
produces it. -/
def cfg8 : Inputs Band2 := mkInputs raw8

/-- The iteration order of the example scenario (its `TEAM_ORDER`). -/
def order2 : List Band2 := [.A, .B]

/-- An all-zero-rate configuration on the two-band chain: both bands
keep their starting headcount and every computed promotion amount is 0. -/
def cfg4 : Inputs Band2 where
  starting := fun t => match t with | .A => 1 | .B => 2
  hires := fun _ => 0
  attr := fun _ => 0
  promo := fun _ => 0
  promo_to := fun t => match t with | .A => some .B | .B => none

/-! ## The simple single-pool model (second app, lines 297–305) -/

/-- One month of the simple model (lines 303–304):
`hc = hc * (1 - monthly_attrition / 100)` then `hc = hc + monthly_hires`. -/
def simpleStep (attrPct hires hc : ℚ) : ℚ :=
  hc * (1 - attrPct / 100) + hires

/-- Internal headcount of the simple model after `k` months. -/
def simpleHC (start attrPct hires : ℚ) : ℕ → ℚ
  | 0 => start
  | k + 1 => simpleStep attrPct hires (simpleHC start attrPct hires k)

/-- The value the simple model appends for its `k`-th month (line 305):
`round(hc, 1)` of the internal value after `k + 1` updates. -/
def simpleRecorded (start attrPct hires : ℚ) (k : ℕ) : ℚ :=
  roundTo1 (simpleHC start attrPct hires (k + 1))

/-! ## Configuration validation

Modelled from the spec: `src/app.py` contains no `BandConfiguration`
constructor — the bounds are enforced by UI widgets and the
`ConfigurationError` taxonomy of spec §4.1/§7 has no counterpart under
`src/`.  The following definitions model that missing construction-time
validation from the spec's words. -/

/-- Modelled from the spec: one band of a caller-supplied configuration
(§4.1, §6 Input). -/
structure RawBand where
  name : String
  succ : Option String
  starting : ℚ
  hires : ℚ
  attr : ℚ
  promo : ℚ
deriving DecidableEq, Repr

/-- Modelled from the spec: the error raised at construction time (§7),
identifying the offending band and field, or the number of terminal
bands when that count is not exactly one. -/
inductive ConfigurationError where
  | badField (band : String) (field : String)
  | terminalBands (count : ℕ)
deriving DecidableEq, Repr

/-- Modelled from the spec: a band's successor, if present, must name
another band in the configuration (§4.1). -/
def succOK (names : List String) (b : RawBand) : Bool :=
  match b.succ with
  | none => true
  | some s => names.contains s && s != b.name

/-- Modelled from the spec: the per-band checks of §4.1, reporting the
first violated field of this band. -/
def bandError (names : List String) (b : RawBand) : Option ConfigurationError :=
  if ¬ succOK names b then some (.badField b.name "successor")
  else if ¬ (0 ≤ b.attr ∧ b.attr < 1) then some (.badField b.name "attr")
  else if ¬ (0 ≤ b.promo ∧ b.promo ≤ 1) then some (.badField b.name "promo")
  else if ¬ 0 ≤ b.hires then some (.badField b.name "hires")
  else if ¬ 0 ≤ b.starting then some (.badField b.name "starting")
  else none

/-- Number of terminal bands (bands with no successor). -/
def terminalCount (bs : List RawBand) : ℕ :=
  bs.countP fun b => b.succ.isNone

/-- Modelled from the spec: the first violation found in the whole
configuration — a per-band field violation, or a terminal-band count
other than one. -/
def configError (bs : List RawBand) : Option ConfigurationError :=
  match bs.findSome? (bandError (bs.map RawBand.name)) with
  | some e => some e
  | none =>
      if terminalCount bs = 1 then none
      else some (.terminalBands (terminalCount bs))

/-- Modelled from the spec: construction fails with the configuration
error when there is one, and otherwise yields the validated bands. -/
def validate (bs : List RawBand) : Except ConfigurationError (List RawBand) :=
  match configError bs with
  | some e => .error e
  | none => .ok bs

/-- The engine inputs derived from a validated band list, with bands
identified by name. -/
def toInputs (bs : List RawBand) : Inputs String where
  starting := fun t => ((bs.find? fun b => b.name == t).map RawBand.starting).getD 0
  hires := fun t => ((bs.find? fun b => b.name == t).map RawBand.hires).getD 0
  attr := fun t => ((bs.find? fun b => b.name == t).map RawBand.attr).getD 0
  promo := fun t => ((bs.find? fun b => b.name == t).map RawBand.promo).getD 0
  promo_to := fun t => ((bs.find? fun b => b.name == t).map RawBand.succ).getD none

/-- Modelled from the spec: the whole run — validate, then simulate only
on success, producing the per-month snapshot rows and the promotion
events.  An invalid configuration short-circuits to the error and no
simulation state is ever computed. -/
def runValidated (bs : List RawBand) (n : ℕ) :
    Except ConfigurationError (List (List ℚ) × List (PromotionEvent String)) :=
  (validate bs).map fun good =>
    ((List.range n).map fun k =>
        (good.map RawBand.name).map (snapshotVal (toInputs good) (good.map RawBand.name) k),
      runEvents (toInputs good) (good.map RawBand.name) n)

/-- A single-band configuration matching the simple model's defaults:
start 100, 4 monthly hires, 2% monthly attrition, no successor. -/
def cfg10 : Inputs Unit where
  starting := fun _ => 100
  hires := fun _ => 4
  attr := fun _ => 1 / 50
  promo := fun _ => 0
  promo_to := fun _ => none

/-! ## Closed form of the promotion apply loop -/

theorem applyOne_apply [DecidableEq β] (cfg : Inputs β) (moves hc : β → ℚ)
    (s x : β) :
    applyOne cfg moves hc s x = hc x + deltaOf cfg moves s x := by
  unfold applyOne deltaOf
  cases h : cfg.promo_to s with
  | none => simp
  | some to_team =>
    simp only [Function.update_apply]
    split_ifs <;> simp_all
    ring

theorem applyMoves_apply [DecidableEq β] (cfg : Inputs β) (moves : β → ℚ)
    (order : List β) (hc : β → ℚ) (x : β) :
    applyMoves cfg moves order hc x
      = hc x + (order.map fun s => deltaOf cfg moves s x).sum := by
  induction order generalizing hc with
  | nil => simp [applyMoves]
  | cons s rest ih =>
    simp only [applyMoves, List.foldl_cons, List.map_cons, List.sum_cons] at *
    rw [ih (applyOne cfg moves hc s), applyOne_apply]
    ring

/-! ## Sum bookkeeping -/

theorem list_sum_map_sub (l : List β) (f g : β → ℚ) :
    (l.map fun x => f x - g x).sum = (l.map f).sum - (l.map g).sum := by
  induction l with
  | nil => simp
  | cons a t ih => simp only [List.map_cons, List.sum_cons, ih]; ring

theorem list_sum_comm {γ : Type} (l1 : List β) (l2 : List γ) (f : β → γ → ℚ) :
    (l1.map fun x => (l2.map fun y => f x y).sum).sum
      = (l2.map fun y => (l1.map fun x => f x y).sum).sum := by
  induction l1 with
  | nil => simp
  | cons a t ih =>
    simp only [List.map_cons, List.sum_cons, ih, ← List.sum_map_add]

theorem sum_map_ite_of_not_mem [DecidableEq β] {c : β} {l : List β} (a : ℚ)
    (h : c ∉ l) :
    (l.map fun x => if x = c then a else 0).sum = 0 := by
  induction l with
  | nil => simp
  | cons y t ih =>
    simp only [List.mem_cons, not_or] at h
    simp [Ne.symm h.1, ih h.2]

theorem sum_map_ite_of_nodup [DecidableEq β] {c : β} {l : List β} (a : ℚ)
    (hn : l.Nodup) (hc : c ∈ l) :
    (l.map fun x => if x = c then a else 0).sum = a := by
  induction l with
  | nil => cases hc
  | cons y t ih =>
    rcases List.mem_cons.mp hc with h | h
    · subst h
      simp [sum_map_ite_of_not_mem a (List.nodup_cons.mp hn).1]
    · have hyc : y ≠ c := by
        rintro rfl
        exact (List.nodup_cons.mp hn).1 h
      simp [if_neg hyc, ih (List.nodup_cons.mp hn).2 h]

/-- The deltas of a single source band sum to zero over any duplicate-free
band list containing the source and its destination: what leaves the
source arrives at the destination. -/
theorem sum_deltaOf_eq_zero [DecidableEq β] (cfg : Inputs β) (moves : β → ℚ)
    {order : List β} (hn : order.Nodup) {s : β} (hs : s ∈ order)
    (hclosed : ∀ d, cfg.promo_to s = some d → d ∈ order) :
    (order.map fun x => deltaOf cfg moves s x).sum = 0 := by
  cases h : cfg.promo_to s with
  | none => simp [deltaOf, h]
  | some d =>
    have hd := hclosed d h
    simp only [deltaOf, h]
    rw [list_sum_map_sub, sum_map_ite_of_nodup _ hn hd,
      sum_map_ite_of_nodup _ hn hs, sub_self]

/-! ## Claim C1: promotions conserve the grand total -/

/-- Claim C1: for every configuration and every quarter-end month, the
sum of per-band headcounts after the promotion moves are applied equals
the sum immediately before (the post-attrition post-hires state) — in
this exact-rational model the conservation is exact, since each move
subtracts an amount from the source band and adds the same amount to its
successor.  The hypotheses say the band list enumerates each band once
and contains every promotion destination, as `TEAM_ORDER` does. -/
theorem promotions_conserve_total [DecidableEq β] (cfg : Inputs β)
    (order : List β) (hn : order.Nodup)
    (hclosed : ∀ t ∈ order, ∀ d, cfg.promo_to t = some d → d ∈ order)
    (k : ℕ) (hq : is_quarter_end (monthNumber k) = true) :
    (order.map (hcAfter cfg order (k + 1))).sum
      = (order.map (hiresStep cfg (attritionStep cfg (hcAfter cfg order k)))).sum := by
  have hstep : hcAfter cfg order (k + 1)
      = monthStep cfg order true (hcAfter cfg order k) := by
    rw [hcAfter, hq]
  rw [hstep]
  unfold monthStep
  simp only [if_true]
  set hc2 := hiresStep cfg (attritionStep cfg (hcAfter cfg order k)) with hhc2
  have hmap : order.map (applyMoves cfg (movesOf cfg hc2) order hc2)
      = order.map fun x =>
          hc2 x + (order.map fun s => deltaOf cfg (movesOf cfg hc2) s x).sum := by
    exact List.map_congr_left fun x _ => applyMoves_apply cfg _ order hc2 x
  rw [hmap, List.sum_map_add, list_sum_comm]
  have hzero : (order.map fun s =>
      (order.map fun x => deltaOf cfg (movesOf cfg hc2) s x).sum).sum = 0 := by
    apply List.sum_eq_zero
    intro y hy
    rcases List.mem_map.mp hy with ⟨s, hs, rfl⟩
    exact sum_deltaOf_eq_zero cfg _ hn hs (hclosed s hs)
  rw [hzero, add_zero]

/-- Witness for C1 at the example scenario in March 2025. -/
theorem promotions_conserve_total_witness :
    (order2.map (hcAfter cfg8 order2 3)).sum
      = (order2.map (hiresStep cfg8 (attritionStep cfg8 (hcAfter cfg8 order2 2)))).sum :=
  promotions_conserve_total cfg8 order2 (by decide)
    (by decide) 2 (by decide)

/-! ## Claim C2: promotion application is order-independent -/

/-- Claim C2: the outgoing amounts are computed by `movesOf` against the
single pre-promotion snapshot `hc` (every band's amount is
`hc t * promo t` when it has a successor), and applying those frozen
moves in any permutation of the band order yields identical final
per-band headcounts. -/
theorem promotion_order_independent [DecidableEq β] (cfg : Inputs β)
    (hc : β → ℚ) (order order' : List β) (hp : order.Perm order') :
    applyMoves cfg (movesOf cfg hc) order' hc
      = applyMoves cfg (movesOf cfg hc) order hc := by
  funext x
  rw [applyMoves_apply, applyMoves_apply]
  congr 1
  exact ((hp.map fun s => deltaOf cfg (movesOf cfg hc) s x).sum_eq).symm

/-- Witness for C2: applying the example scenario's March moves in the
reversed band order gives the same result. -/
theorem promotion_order_independent_witness :
    applyMoves cfg8 (movesOf cfg8 cfg8.starting) [Band2.B, Band2.A] cfg8.starting
      = applyMoves cfg8 (movesOf cfg8 cfg8.starting) order2 cfg8.starting :=
  promotion_order_independent cfg8 cfg8.starting order2 [Band2.B, Band2.A]
    (by decide)

/-! ## Nonnegativity of the internal state on valid configurations -/

theorem movesOf_nonneg (cfg : Inputs β) (hc : β → ℚ) (hhc : ∀ t, 0 ≤ hc t)
    (hp : ∀ t, 0 ≤ cfg.promo t) (s : β) : 0 ≤ movesOf cfg hc s := by
  unfold movesOf
  cases cfg.promo_to s with
  | none => exact le_refl 0
  | some d => exact mul_nonneg (hhc s) (hp s)

theorem movesOf_le (cfg : Inputs β) (hc : β → ℚ) (hhc : 0 ≤ hc x)
    (hp : 0 ≤ cfg.promo x) : movesOf cfg hc x ≤ hc x * cfg.promo x := by
  unfold movesOf
  cases cfg.promo_to x with
  | none => exact mul_nonneg hhc hp
  | some d => exact le_refl _

theorem deltaOf_nonneg_of_ne [DecidableEq β] (cfg : Inputs β) (moves : β → ℚ)
    {s x : β} (hsx : s ≠ x) (hm : 0 ≤ moves s) :
    0 ≤ deltaOf cfg moves s x := by
  cases h : cfg.promo_to s with
  | none => simp [deltaOf, h]
  | some d =>
    have hxs : ¬ x = s := fun hh => hsx hh.symm
    simp only [deltaOf, h, if_neg hxs, sub_zero]
    split_ifs
    · exact hm
    · exact le_refl 0

theorem deltaOf_self_ge [DecidableEq β] (cfg : Inputs β) (moves : β → ℚ)
    (x : β) (hm : 0 ≤ moves x) :
    -(moves x) ≤ deltaOf cfg moves x x := by
  cases h : cfg.promo_to x with
  | none => simp only [deltaOf, h]; linarith
  | some d =>
    simp only [deltaOf, h, if_pos rfl]
    split_ifs <;> linarith

theorem sum_deltaOf_ge [DecidableEq β] (cfg : Inputs β) (moves : β → ℚ)
    {order : List β} (hn : order.Nodup) (hm : ∀ s, 0 ≤ moves s) (x : β) :
    -(moves x) ≤ (order.map fun s => deltaOf cfg moves s x).sum := by
  induction order with
  | nil =>
    simp only [List.map_nil, List.sum_nil, neg_nonpos]
    exact hm x
  | cons s rest ih =>
    have hrest := ih (List.nodup_cons.mp hn).2
    simp only [List.map_cons, List.sum_cons]
    by_cases hsx : s = x
    · have hxrest : x ∉ rest := fun hx =>
        (List.nodup_cons.mp hn).1 (by rw [hsx]; exact hx)
      have htail : 0 ≤ (rest.map fun u => deltaOf cfg moves u x).sum := by
        apply List.sum_nonneg
        intro y hy
        rcases List.mem_map.mp hy with ⟨u, hu, rfl⟩
        have hux : u ≠ x := fun hh => hxrest (hh ▸ hu)
        exact deltaOf_nonneg_of_ne cfg moves hux (hm u)
      have hhead : -(moves x) ≤ deltaOf cfg moves s x := by
        rw [hsx]
        exact deltaOf_self_ge cfg moves x (hm x)
      linarith
    · have hhead := deltaOf_nonneg_of_ne cfg moves hsx (hm s)
      linarith

theorem applyMoves_nonneg [DecidableEq β] (cfg : Inputs β) {order : List β}
    (hn : order.Nodup) (hc : β → ℚ) (hhc : ∀ t, 0 ≤ hc t)
    (hp : ∀ t, 0 ≤ cfg.promo t ∧ cfg.promo t ≤ 1) (x : β) :
    0 ≤ applyMoves cfg (movesOf cfg hc) order hc x := by
  rw [applyMoves_apply]
  have hm : ∀ s, 0 ≤ movesOf cfg hc s :=
    movesOf_nonneg cfg hc hhc (fun t => (hp t).1)
  have h1 := sum_deltaOf_ge cfg (movesOf cfg hc) hn hm x
  have h2 := movesOf_le cfg hc (hhc x) (hp x).1
  have h3 : 0 ≤ hc x * (1 - cfg.promo x) :=
    mul_nonneg (hhc x) (by linarith [(hp x).2])
  nlinarith

theorem monthStep_nonneg [DecidableEq β] (cfg : Inputs β) {order : List β}
    (hn : order.Nodup) (qe : Bool) (hc : β → ℚ) (hhc : ∀ t, 0 ≤ hc t)
    (hh : ∀ t, 0 ≤ cfg.hires t) (ha : ∀ t, 0 ≤ cfg.attr t ∧ cfg.attr t < 1)
    (hp : ∀ t, 0 ≤ cfg.promo t ∧ cfg.promo t ≤ 1) (t : β) :
    0 ≤ monthStep cfg order qe hc t := by
  have h1 : ∀ u, 0 ≤ attritionStep cfg hc u := fun u =>
    mul_nonneg (hhc u) (by linarith [(ha u).2])
  have h2 : ∀ u, 0 ≤ hiresStep cfg (attritionStep cfg hc) u := fun u =>
    add_nonneg (h1 u) (hh u)
  unfold monthStep
  cases qe with
  | false => simpa using h2 t
  | true =>
    simpa using applyMoves_nonneg cfg hn _ h2 hp t

theorem hcAfter_nonneg [DecidableEq β] (cfg : Inputs β) {order : List β}
    (hn : order.Nodup) (hstart : ∀ t, 0 ≤ cfg.starting t)
    (hh : ∀ t, 0 ≤ cfg.hires t) (ha : ∀ t, 0 ≤ cfg.attr t ∧ cfg.attr t < 1)
    (hp : ∀ t, 0 ≤ cfg.promo t ∧ cfg.promo t ≤ 1) :
    ∀ k t, 0 ≤ hcAfter cfg order k t := by
  intro k
  induction k with
  | zero => exact hstart
  | succ k ih =>
    exact monthStep_nonneg cfg hn _ (hcAfter cfg order k) ih hh ha hp

/-- On a valid configuration the reporting clamp is the identity: the
snapshot value equals the internal headcount. -/
theorem snapshotVal_eq_hcAfter [DecidableEq β] (cfg : Inputs β)
    {order : List β} (hn : order.Nodup)
    (hstart : ∀ t, 0 ≤ cfg.starting t) (hh : ∀ t, 0 ≤ cfg.hires t)
    (ha : ∀ t, 0 ≤ cfg.attr t ∧ cfg.attr t < 1)
    (hp : ∀ t, 0 ≤ cfg.promo t ∧ cfg.promo t ≤ 1) (k : ℕ) (t : β) :
    snapshotVal cfg order k t = hcAfter cfg order (k + 1) t := by
  show max 0 (hcAfter cfg order (k + 1) t) = hcAfter cfg order (k + 1) t
  exact max_eq_right (hcAfter_nonneg cfg hn hstart hh ha hp (k + 1) t)

/-! ## Claim C9: on valid configurations the clamp never fires -/

/-- Claim C9: with starting headcount and hires nonnegative, attrition in
[0,1) and promotion in [0,1], and the band order listing each band once,
the internal headcount is nonnegative after each of the three update
steps of every month, so the reporting clamp never alters a value:
every reported per-band value equals the internal one exactly. -/
theorem valid_config_clamp_never_fires [DecidableEq β] (cfg : Inputs β)
    (order : List β) (hn : order.Nodup)
    (hstart : ∀ t, 0 ≤ cfg.starting t) (hh : ∀ t, 0 ≤ cfg.hires t)
    (ha : ∀ t, 0 ≤ cfg.attr t ∧ cfg.attr t < 1)
    (hp : ∀ t, 0 ≤ cfg.promo t ∧ cfg.promo t ≤ 1) :
    ∀ k t,
      0 ≤ hcAfter cfg order k t
      ∧ 0 ≤ attritionStep cfg (hcAfter cfg order k) t
      ∧ 0 ≤ hiresStep cfg (attritionStep cfg (hcAfter cfg order k)) t
      ∧ 0 ≤ hcAfter cfg order (k + 1) t
      ∧ snapshotVal cfg order k t = hcAfter cfg order (k + 1) t := by
  intro k t
  have hbase := hcAfter_nonneg cfg hn hstart hh ha hp
  have h1 : 0 ≤ attritionStep cfg (hcAfter cfg order k) t :=
    mul_nonneg (hbase k t) (by linarith [(ha t).2])
  exact ⟨hbase k t, h1, add_nonneg h1 (hh t), hbase (k + 1) t,
    snapshotVal_eq_hcAfter cfg hn hstart hh ha hp k t⟩

/-- Witness for C9 at the example scenario, March 2025, band A. -/
theorem valid_config_clamp_never_fires_witness :
    0 ≤ hcAfter cfg8 order2 2 Band2.A
    ∧ 0 ≤ attritionStep cfg8 (hcAfter cfg8 order2 2) Band2.A
    ∧ 0 ≤ hiresStep cfg8 (attritionStep cfg8 (hcAfter cfg8 order2 2)) Band2.A
    ∧ 0 ≤ hcAfter cfg8 order2 3 Band2.A
    ∧ snapshotVal cfg8 order2 2 Band2.A = hcAfter cfg8 order2 3 Band2.A :=
  valid_config_clamp_never_fires cfg8 order2 (by decide)
    (by intro t; cases t <;> norm_num [cfg8, raw8, mkInputs])
    (by intro t; cases t <;> norm_num [cfg8, raw8, mkInputs])
    (by intro t; cases t <;> norm_num [cfg8, raw8, mkInputs])
    (by intro t; cases t <;> norm_num [cfg8, raw8, mkInputs])
    2 Band2.A

/-! ## Claim C3: the three-step monthly update and quarter-end gating -/

/-- Claim C3: every month applies attrition, then hires, then — exactly
when the month's calendar number is in the quarter-end set — the
promotion pass (last conjunct); on a valid configuration, in a
non-quarter-end month the recorded headcount equals the
post-attrition-post-hires value exactly (first two conjuncts). -/
theorem monthly_update_structure [DecidableEq β] (cfg : Inputs β)
    (order : List β) (hn : order.Nodup)
    (hstart : ∀ t, 0 ≤ cfg.starting t) (hh : ∀ t, 0 ≤ cfg.hires t)
    (ha : ∀ t, 0 ≤ cfg.attr t ∧ cfg.attr t < 1)
    (hp : ∀ t, 0 ≤ cfg.promo t ∧ cfg.promo t ≤ 1)
    (k : ℕ) (hq : is_quarter_end (monthNumber k) = false) :
    hcAfter cfg order (k + 1)
        = hiresStep cfg (attritionStep cfg (hcAfter cfg order k))
    ∧ (∀ t, snapshotVal cfg order k t
        = hiresStep cfg (attritionStep cfg (hcAfter cfg order k)) t)
    ∧ (∀ j, hcAfter cfg order (j + 1)
        = if is_quarter_end (monthNumber j) then
            applyMoves cfg
              (movesOf cfg (hiresStep cfg (attritionStep cfg (hcAfter cfg order j))))
              order (hiresStep cfg (attritionStep cfg (hcAfter cfg order j)))
          else hiresStep cfg (attritionStep cfg (hcAfter cfg order j))) := by
  have hstructure : ∀ j, hcAfter cfg order (j + 1)
      = if is_quarter_end (monthNumber j) then
          applyMoves cfg
            (movesOf cfg (hiresStep cfg (attritionStep cfg (hcAfter cfg order j))))
            order (hiresStep cfg (attritionStep cfg (hcAfter cfg order j)))
        else hiresStep cfg (attritionStep cfg (hcAfter cfg order j)) := by
    intro j
    cases hqe : is_quarter_end (monthNumber j) <;>
      simp [hcAfter, monthStep, hqe]
  have hval : hcAfter cfg order (k + 1)
      = hiresStep cfg (attritionStep cfg (hcAfter cfg order k)) := by
    rw [hstructure k, hq]
    simp
  refine ⟨hval, ?_, hstructure⟩
  intro t
  rw [snapshotVal_eq_hcAfter cfg hn hstart hh ha hp k t, hval]

/-- Witness for C3 at the example scenario in January 2025 (month
number 1, not a quarter end). -/
theorem monthly_update_structure_witness :
    hcAfter cfg8 order2 1
        = hiresStep cfg8 (attritionStep cfg8 (hcAfter cfg8 order2 0))
    ∧ (∀ t, snapshotVal cfg8 order2 0 t
        = hiresStep cfg8 (attritionStep cfg8 (hcAfter cfg8 order2 0)) t)
    ∧ (∀ j, hcAfter cfg8 order2 (j + 1)
        = if is_quarter_end (monthNumber j) then
            applyMoves cfg8
              (movesOf cfg8 (hiresStep cfg8 (attritionStep cfg8 (hcAfter cfg8 order2 j))))
              order2 (hiresStep cfg8 (attritionStep cfg8 (hcAfter cfg8 order2 j)))
          else hiresStep cfg8 (attritionStep cfg8 (hcAfter cfg8 order2 j))) :=
  monthly_update_structure cfg8 order2 (by decide)
    (by intro t; cases t <;> norm_num [cfg8, raw8, mkInputs])
    (by intro t; cases t <;> norm_num [cfg8, raw8, mkInputs])
    (by intro t; cases t <;> norm_num [cfg8, raw8, mkInputs])
    (by intro t; cases t <;> norm_num [cfg8, raw8, mkInputs])
    0 (by decide)

/-! ## Claim C6: reporting clamps, internal state does not -/

/-- Claim C6: for every configuration and month, the reported snapshot
value is `max 0` of the internal headcount — hence every reported value
and the reported total are nonnegative — while the following month is
computed from the unclamped internal state. -/
theorem snapshot_clamped_state_unclamped [DecidableEq β] (cfg : Inputs β)
    (order : List β) (k : ℕ) (t : β) :
    snapshotVal cfg order k t = max 0 (hcAfter cfg order (k + 1) t)
    ∧ 0 ≤ snapshotVal cfg order k t
    ∧ 0 ≤ snapshotTotal cfg order k
    ∧ hcAfter cfg order (k + 2)
        = monthStep cfg order (is_quarter_end (monthNumber (k + 1)))
            (hcAfter cfg order (k + 1)) := by
  refine ⟨rfl, le_max_left 0 _, ?_, rfl⟩
  apply List.sum_nonneg
  intro y hy
  rcases List.mem_map.mp hy with ⟨u, hu, rfl⟩
  exact le_max_left 0 _

/-! ## Claim C7: the terminal band never promotes anyone out -/

/-- Claim C7: a band whose `promo_to` is `None` never appears as the
source band of any recorded promotion event, its promotion rate is set
to 0 by the inputs construction regardless of the raw widget value, its
net effect as a source in the apply loop is zero everywhere, and its own
headcount can only grow during the apply pass (no headcount leaves it
via promotion). -/
theorem terminal_band_never_source [DecidableEq β] (r : RawInputs β)
    (order : List β) (term : β) (hterm : r.promo_to term = none) :
    (∀ n e, e ∈ runEvents (mkInputs r) order n → e.fromBand ≠ term)
    ∧ (mkInputs r).promo term = 0
    ∧ (∀ moves x, deltaOf (mkInputs r) moves term x = 0)
    ∧ (∀ (moves hc : β → ℚ), (∀ s, 0 ≤ moves s) →
        hc term ≤ applyMoves (mkInputs r) moves order hc term) := by
  have hpt : (mkInputs r).promo_to term = none := hterm
  have hdelta : ∀ (moves : β → ℚ) (x : β),
      deltaOf (mkInputs r) moves term x = 0 := by
    intro moves x
    simp [deltaOf, hpt]
  refine ⟨?_, ?_, hdelta, ?_⟩
  · intro n e he
    rcases List.mem_flatMap.mp he with ⟨k, _, hk⟩
    unfold monthEvents at hk
    split at hk
    case isFalse => cases hk
    case isTrue =>
      rcases List.mem_filterMap.mp hk with ⟨t, _, ht⟩
      rcases Option.map_eq_some'.mp ht with ⟨d, hd, rfl⟩
      intro hfrom
      rw [show ((⟨_, t, d, _⟩ : PromotionEvent β).fromBand) = t from rfl] at hfrom
      rw [hfrom] at hd
      rw [hpt] at hd
      cases hd
  · simp [mkInputs, hterm]
  · intro moves hc hm
    rw [applyMoves_apply]
    have : 0 ≤ (order.map fun s => deltaOf (mkInputs r) moves s term).sum := by
      apply List.sum_nonneg
      intro y hy
      rcases List.mem_map.mp hy with ⟨u, hu, rfl⟩
      by_cases hus : u = term
      · rw [hus, hdelta]
      · exact deltaOf_nonneg_of_ne (mkInputs r) moves hus (hm u)
    linarith

/-- Witness for C7: band B of the example scenario, whose raw promotion
percentage is 40 but whose effective rate is 0. -/
theorem terminal_band_never_source_witness :
    (∀ n e, e ∈ runEvents (mkInputs raw8) order2 n → e.fromBand ≠ Band2.B)
    ∧ (mkInputs raw8).promo Band2.B = 0
    ∧ (∀ moves x, deltaOf (mkInputs raw8) moves Band2.B x = 0)
    ∧ (∀ (moves hc : Band2 → ℚ), (∀ s, 0 ≤ moves s) →
        hc Band2.B ≤ applyMoves (mkInputs raw8) moves order2 hc Band2.B) :=
  terminal_band_never_source raw8 order2 Band2.B rfl

/-! ## Claim C4: the zero-rate boundary

The headcount half of the claim holds, but the event half does not:
`simulate()` appends a `promo_rows` record for every band with a
successor at every quarter end, with no check that the amount is
positive (lines 162–175), so an all-zero-rate run produces zero-amount
events rather than an empty list. -/

/-- Counterexample to C4 as stated: on the all-zero-rate two-band chain,
the promotion-event list of the full 24-month run is not empty. -/
theorem zero_rate_events_nonempty :
    runEvents cfg4 order2 numMonths ≠ [] := by
  norm_num [runEvents, monthEvents, promoEvents, hcAfter, monthStep,
    attritionStep, hiresStep, applyMoves, applyOne, movesOf, cfg4, order2,
    is_quarter_end, monthNumber, numMonths, Function.update_apply, roundTo1,
    monthLabel, pad2, List.range_succ, round_eq, List.filterMap_cons]
  simp

/-- Claim C4, amended: with every band's attrition, hires and promotion
rate equal to 0, headcount is constant across the horizon; promotion
events are still recorded (one per band with a successor at each quarter
end), but every recorded amount is 0, so the event list filtered to
positive amounts is empty. -/
theorem zero_rate_constant_headcount [DecidableEq β] (cfg : Inputs β)
    (order : List β) (ha : ∀ t, cfg.attr t = 0) (hh : ∀ t, cfg.hires t = 0)
    (hp : ∀ t, cfg.promo t = 0) :
    (∀ k t, hcAfter cfg order k t = cfg.starting t)
    ∧ (∀ n e, e ∈ runEvents cfg order n → e.promotedHC = 0)
    ∧ (∀ n, (runEvents cfg order n).filter
        (fun e => decide (0 < e.promotedHC)) = []) := by
  have hmz : ∀ hc : β → ℚ, (movesOf cfg hc) = fun _ => 0 := by
    intro hc
    funext s
    unfold movesOf
    cases cfg.promo_to s with
    | none => rfl
    | some d => rw [hp s, mul_zero]
  have hdz : ∀ (hc : β → ℚ) (s x : β),
      deltaOf cfg (movesOf cfg hc) s x = 0 := by
    intro hc s x
    rw [hmz]
    cases h : cfg.promo_to s <;> simp [deltaOf, h]
  have hconst : ∀ k t, hcAfter cfg order k t = cfg.starting t := by
    intro k
    induction k with
    | zero => intro t; rfl
    | succ k ih =>
      intro t
      have hstep : ∀ qe, monthStep cfg order qe (hcAfter cfg order k) t
          = hcAfter cfg order k t := by
        intro qe
        have h2 : hiresStep cfg (attritionStep cfg (hcAfter cfg order k))
            = hcAfter cfg order k := by
          funext u
          simp [hiresStep, attritionStep, ha u, hh u]
        cases qe with
        | false => simp [monthStep, h2]
        | true =>
          simp only [monthStep, if_true]
          rw [h2, applyMoves_apply]
          have : (order.map fun s =>
              deltaOf cfg (movesOf cfg (hcAfter cfg order k)) s t).sum = 0 := by
            apply List.sum_eq_zero
            intro y hy
            rcases List.mem_map.mp hy with ⟨u, hu, rfl⟩
            exact hdz _ u t
          rw [this, add_zero]
      show monthStep cfg order _ (hcAfter cfg order k) t = cfg.starting t
      rw [hstep, ih t]
  have hev : ∀ n e, e ∈ runEvents cfg order n → e.promotedHC = 0 := by
    intro n e he
    rcases List.mem_flatMap.mp he with ⟨k, _, hk⟩
    unfold monthEvents at hk
    split at hk
    case isFalse => cases hk
    case isTrue =>
      rcases List.mem_filterMap.mp hk with ⟨t, _, ht⟩
      rcases Option.map_eq_some'.mp ht with ⟨d, hd, rfl⟩
      show roundTo1 _ = 0
      rw [hmz]
      norm_num [roundTo1]
  refine ⟨hconst, hev, ?_⟩
  intro n
  rw [List.filter_eq_nil_iff]
  intro e he
  simp [hev n e he]

/-- Witness for the amended C4 at the concrete all-zero configuration. -/
theorem zero_rate_constant_headcount_witness :
    (∀ k t, hcAfter cfg4 order2 k t = cfg4.starting t)
    ∧ (∀ n e, e ∈ runEvents cfg4 order2 n → e.promotedHC = 0)
    ∧ (∀ n, (runEvents cfg4 order2 n).filter
        (fun e => decide (0 < e.promotedHC)) = []) :=
  zero_rate_constant_headcount cfg4 order2
    (fun _ => rfl) (fun _ => rfl) (fun _ => rfl)

/-! ## Claim C8: the worked example scenario through March 2025 -/

/-- Claim C8: with A starting at 100, no hires, 10% attrition and 50%
promotion into B, and B inert, after March's attrition A holds
72.9 = 729/10; the quarter-end promotion moves 36.45 = 729/20 from A to
B, leaving both at 36.45 (also as reported), and the run records exactly
one event — March 2025, A to B — with reported amount 36.5 = 73/2 after
rounding to one decimal. -/
theorem example_scenario_march :
    attritionStep cfg8 (hcAfter cfg8 order2 2) Band2.A = 729 / 10
    ∧ hcAfter cfg8 order2 3 Band2.A = 729 / 20
    ∧ hcAfter cfg8 order2 3 Band2.B = 729 / 20
    ∧ snapshotVal cfg8 order2 2 Band2.A = 729 / 20
    ∧ snapshotVal cfg8 order2 2 Band2.B = 729 / 20
    ∧ runEvents cfg8 order2 3 = [⟨"2025-03", Band2.A, Band2.B, 73 / 2⟩] := by
  have hattr : attritionStep cfg8 (hcAfter cfg8 order2 2) Band2.A = 729 / 10 := by
    norm_num [hcAfter, monthStep, attritionStep, hiresStep, applyMoves,
      applyOne, movesOf, cfg8, raw8, mkInputs, order2, is_quarter_end,
      monthNumber, Function.update_apply]
  have h3A : hcAfter cfg8 order2 3 Band2.A = 729 / 20 := by
    norm_num [hcAfter, monthStep, attritionStep, hiresStep, applyMoves,
      applyOne, movesOf, cfg8, raw8, mkInputs, order2, is_quarter_end,
      monthNumber, Function.update_apply]
    decide
  have h3B : hcAfter cfg8 order2 3 Band2.B = 729 / 20 := by
    norm_num [hcAfter, monthStep, attritionStep, hiresStep, applyMoves,
      applyOne, movesOf, cfg8, raw8, mkInputs, order2, is_quarter_end,
      monthNumber, Function.update_apply]
    decide
  have hev : runEvents cfg8 order2 3
      = [⟨"2025-03", Band2.A, Band2.B, 73 / 2⟩] := by
    norm_num [runEvents, monthEvents, promoEvents, hcAfter, monthStep,
      attritionStep, hiresStep, applyMoves, applyOne, movesOf, cfg8, raw8,
      mkInputs, order2, is_quarter_end, monthNumber, Function.update_apply,
      roundTo1, monthLabel, pad2, List.range_succ, round_eq,
      List.filterMap_cons]
    decide
  refine ⟨hattr, h3A, h3B, ?_, ?_, hev⟩
  · show max 0 (hcAfter cfg8 order2 3 Band2.A) = 729 / 20
    rw [h3A]
    exact max_eq_right (by norm_num)
  · show max 0 (hcAfter cfg8 order2 3 Band2.B) = 729 / 20
    rw [h3B]
    exact max_eq_right (by norm_num)

/-! ## Claim C10: the simple single-pool model agrees with the band engine -/

/-- Claim C10: for equal parameters on a single band with no successor,
the simple model's internal headcount after each month equals the band
engine's internal headcount after that month (the promotion pass is a
no-op, so this is the post-attrition-post-hires value, second conjunct);
the two differ only in reporting — the simple model records
`round(hc, 1)` while the band engine records `max(0, hc)` (last two
conjuncts). -/
theorem simple_model_agrees_with_band_engine (start hires attrPct : ℚ)
    (cfg : Inputs Unit) (order : List Unit)
    (h1 : cfg.starting () = start) (h2 : cfg.hires () = hires)
    (h3 : cfg.attr () = attrPct / 100) (h4 : cfg.promo_to () = none) :
    (∀ k, hcAfter cfg order k () = simpleHC start attrPct hires k)
    ∧ (∀ k, hcAfter cfg order (k + 1) ()
        = hiresStep cfg (attritionStep cfg (hcAfter cfg order k)) ())
    ∧ (∀ k, simpleRecorded start attrPct hires k
        = roundTo1 (simpleHC start attrPct hires (k + 1)))
    ∧ (∀ k, snapshotVal cfg order k ()
        = max 0 (hcAfter cfg order (k + 1) ())) := by
  have happ : ∀ (moves hc : Unit → ℚ) (l : List Unit),
      applyMoves cfg moves l hc = hc := by
    intro moves hc l
    induction l with
    | nil => rfl
    | cons a t ih =>
      cases a
      show applyMoves cfg moves t (applyOne cfg moves hc ()) = hc
      have hone : applyOne cfg moves hc () = hc := by
        unfold applyOne
        rw [h4]
      rw [hone, ih]
  have hstep : ∀ k, hcAfter cfg order (k + 1) ()
      = hiresStep cfg (attritionStep cfg (hcAfter cfg order k)) () := by
    intro k
    show monthStep cfg order _ (hcAfter cfg order k) ()
      = hiresStep cfg (attritionStep cfg (hcAfter cfg order k)) ()
    unfold monthStep
    cases is_quarter_end (monthNumber k) with
    | false => simp
    | true => simp [happ]
  have hmain : ∀ k, hcAfter cfg order k () = simpleHC start attrPct hires k := by
    intro k
    induction k with
    | zero => exact h1
    | succ k ih =>
      rw [hstep k]
      show attritionStep cfg (hcAfter cfg order k) () + cfg.hires ()
        = simpleHC start attrPct hires (k + 1)
      show hcAfter cfg order k () * (1 - cfg.attr ()) + cfg.hires ()
        = simpleHC start attrPct hires (k + 1)
      rw [ih, h2, h3]
      rfl
  exact ⟨hmain, hstep, fun k => rfl, fun k => rfl⟩

/-- Witness for C10 at the simple model's default parameters. -/
theorem simple_model_agrees_with_band_engine_witness :
    (∀ k, hcAfter cfg10 [()] k () = simpleHC 100 2 4 k)
    ∧ (∀ k, hcAfter cfg10 [()] (k + 1) ()
        = hiresStep cfg10 (attritionStep cfg10 (hcAfter cfg10 [()] k)) ())
    ∧ (∀ k, simpleRecorded 100 2 4 k = roundTo1 (simpleHC 100 2 4 (k + 1)))
    ∧ (∀ k, snapshotVal cfg10 [()] k ()
        = max 0 (hcAfter cfg10 [()] (k + 1) ())) :=
  simple_model_agrees_with_band_engine 100 4 2 cfg10 [()]
    rfl rfl (by norm_num [cfg10]) rfl

/-! ## Claim C5: construction-time validation (modelled from the spec) -/

theorem succOK_iff (names : List String) (b : RawBand) :
    succOK names b = true
      ↔ ∀ s, b.succ = some s → s ∈ names ∧ s ≠ b.name := by
  unfold succOK
  cases h : b.succ with
  | none => simp
  | some s => simp [h]

theorem bandError_eq_none_iff (names : List String) (b : RawBand) :
    bandError names b = none
      ↔ ((∀ s, b.succ = some s → s ∈ names ∧ s ≠ b.name)
          ∧ (0 ≤ b.attr ∧ b.attr < 1)
          ∧ (0 ≤ b.promo ∧ b.promo ≤ 1)
          ∧ 0 ≤ b.hires ∧ 0 ≤ b.starting) := by
  rw [← succOK_iff names b]
  unfold bandError
  split_ifs <;> simp_all

theorem bandError_some_field (names : List String) (b : RawBand)
    (e : ConfigurationError) (he : bandError names b = some e) :
    ∃ field, e = .badField b.name field := by
  unfold bandError at he
  split_ifs at he <;> exact ⟨_, (Option.some.injEq _ _ ▸ he).symm⟩

/-- Claim C5 (modelled from the spec, §4.1/§7): construction succeeds
exactly when every band's successor (if present) names another band of
the configuration, exactly one band has no successor, attrition is in
[0,1), promotion is in [0,1], and hires and starting headcount are
nonnegative; any per-band violation is reported as a
`ConfigurationError` naming the offending band and field; and on any
validation error the run returns that error without simulating. -/
theorem configuration_validation (bs : List RawBand) (n : ℕ) :
    (validate bs = .ok bs ↔
      ((∀ b ∈ bs,
          (∀ s, b.succ = some s → s ∈ bs.map RawBand.name ∧ s ≠ b.name)
          ∧ (0 ≤ b.attr ∧ b.attr < 1)
          ∧ (0 ≤ b.promo ∧ b.promo ≤ 1)
          ∧ 0 ≤ b.hires ∧ 0 ≤ b.starting)
        ∧ terminalCount bs = 1))
    ∧ (∀ b ∈ bs, ∀ e, bandError (bs.map RawBand.name) b = some e →
        ∃ field, e = .badField b.name field)
    ∧ (∀ e, validate bs = .error e → runValidated bs n = .error e) := by
  refine ⟨?_, fun b _ e he => bandError_some_field _ b e he, ?_⟩
  · have h1 : validate bs = .ok bs ↔ configError bs = none := by
      unfold validate
      cases h : configError bs <;> simp
    have h2 : configError bs = none
        ↔ (bs.findSome? (bandError (bs.map RawBand.name)) = none
            ∧ terminalCount bs = 1) := by
      unfold configError
      cases h : bs.findSome? (bandError (bs.map RawBand.name)) with
      | some e => simp [h]
      | none =>
        simp only [h, true_and]
        split_ifs with ht <;> simp [ht]
    rw [h1, h2, List.findSome?_eq_none_iff]
    constructor
    · rintro ⟨hall, hterm⟩
      exact ⟨fun b hb => (bandError_eq_none_iff _ b).mp (hall b hb), hterm⟩
    · rintro ⟨hall, hterm⟩
      exact ⟨fun b hb => (bandError_eq_none_iff _ b).mpr (hall b hb), hterm⟩
  · intro e he
    unfold runValidated
    rw [he]
    rfl

/-- Witness for C5: a valid two-band chain validates, and a copy with an
out-of-range attrition rate fails naming the band and field, without
running the simulation. -/
theorem configuration_validation_witness :
    (validate
        [⟨"A", some "B", 100, 0, 1 / 10, 1 / 2⟩, ⟨"B", none, 0, 0, 0, 0⟩]
      = .ok [⟨"A", some "B", 100, 0, 1 / 10, 1 / 2⟩, ⟨"B", none, 0, 0, 0, 0⟩])
    ∧ (runValidated
        [⟨"A", some "B", 100, 0, 2, 1⟩, ⟨"B", none, 0, 0, 0, 0⟩] 24
      = .error (.badField "A" "attr")) := by
  constructor
  · exact (configuration_validation
        [⟨"A", some "B", 100, 0, 1 / 10, 1 / 2⟩, ⟨"B", none, 0, 0, 0, 0⟩]
        24).1.mpr
      (by
        constructor
        · intro b hb
          cases hb with
          | head =>
            refine ⟨?_, by norm_num, by norm_num, by norm_num, by norm_num⟩
            intro s hs
            injection hs with hs2
            subst hs2
            exact ⟨by simp, by simp⟩
          | tail _ hb2 =>
            cases hb2 with
            | head =>
              refine ⟨?_, by norm_num, by norm_num, by norm_num, by norm_num⟩
              intro s hs
              cases hs
            | tail _ hb3 => cases hb3
        · rfl)
  · exact (configuration_validation
        [⟨"A", some "B", 100, 0, 2, 1⟩, ⟨"B", none, 0, 0, 0, 0⟩] 24).2.2
      (.badField "A" "attr")
      (by
        norm_num [validate, configError, List.findSome?, bandError, succOK]
        rw [if_neg (by decide : ¬ ("B" : String) = "A")])

end HCModel
